import Mathlib

/-!
Shallow embedding of the rnm batch file-renaming core
(src/.history/src/operations_20251204122048.rs, src/.history/src/config_20251204122456.rs,
src/src/operations.rs) and proofs about the claims of its specification.

Rust strings are modelled as lists of characters (`Str`); where the source
does byte-index arithmetic (`str::len`, byte slicing), byte lengths are
computed explicitly from the UTF-8 size of each character.  Filesystem state
is modelled as the list of existing paths, and the success of an individual
`std::fs::rename` call is an oracle parameter.  Error values that the source
renders as formatted German strings are kept structured, carrying the same
data that the source interpolates into the message.
-/

namespace Rnm

/-- Model of a Rust `String` as its list of characters. -/
abbrev Str := List Char

/-- Conversion from a Lean string literal to the model type. -/
def str (s : String) : Str := s.data

/-- UTF-8 byte length of a string, modelling Rust `str::len`. -/
def byteLen (s : Str) : Nat := (s.map Char.utf8Size).sum

/-- Rust `str::starts_with` on the character level. -/
def startsWith : Str → Str → Bool
  | _, [] => true
  | [], _ :: _ => false
  | c :: cs, p :: ps => c == p && startsWith cs ps

/-- Rust `str::ends_with` on the character level. -/
def endsWith (s p : Str) : Bool := startsWith s.reverse p.reverse

/-- Charwise lowercasing, modelling Rust `str::to_lowercase` (which agrees
with the charwise map on the ASCII filenames this tool manipulates). -/
def strLower (s : Str) : Str := s.map Char.toLower

/-- Charwise uppercasing, modelling Rust `str::to_uppercase`. -/
def strUpper (s : Str) : Str := s.map Char.toUpper

/-- Rust `str::rfind('.')` followed by splitting at the found byte index:
returns `(stem, extension-including-the-dot)` split at the last `'.'`, or
`none` when the string holds no `'.'`.  Splitting at the byte index returned
by `rfind` is always at a character boundary, so the split itself is total. -/
def splitAtLastDot : Str → Option (Str × Str)
  | [] => none
  | c :: cs =>
    match splitAtLastDot cs with
    | some (a, b) => some (c :: a, b)
    | none => if c = '.' then some ([], c :: cs) else none

/-- Decimal digit character. -/
def digitChar (n : Nat) : Char := Char.ofNat (48 + n)

/-- Fuel-driven decimal rendering helper (the fuel is always sufficient). -/
def toDecCore : Nat → Nat → Str → Str
  | 0, _, acc => acc
  | fuel + 1, n, acc =>
    if n < 10 then digitChar n :: acc
    else toDecCore fuel (n / 10) (digitChar (n % 10) :: acc)

/-- Decimal rendering of a natural number, modelling Rust integer `Display`. -/
def toDec (n : Nat) : Str := toDecCore (n + 1) n []

/-- Zero-padding to a minimum width, modelling Rust format specifiers
of the shape `{:0>width$}` and `{:0width}` for unsigned integers: values
wider than `width` are not truncated. -/
def padZeros (width n : Nat) : Str :=
  let ds := toDec n
  List.replicate (width - ds.length) '0' ++ ds

/-! ## Data model (src/.history/src/app_*.rs, operations snapshot) -/

/-- Rename modes of the source enum `RenameMode` (snapshot with DateInsert).
The source constructors `Prefix` and `Suffix` are called `PrefixMode` and
`SuffixMode` here. -/
inductive RenameMode where
  | SearchReplace
  | Regex
  | Numbering
  | PrefixMode
  | SuffixMode
  | DateInsert
  | Uppercase
  | Lowercase
  | TitleCase
deriving DecidableEq, Repr

/-- Source enum `PrefixAction`. -/
inductive PrefixAction where
  | Add
  | Remove
deriving DecidableEq, Repr

/-- Source enum `DatePosition`; the source constructors `Prefix`, `Suffix`,
`Replace` are called `PrefixPos`, `SuffixPos`, `ReplacePos` here. -/
inductive DatePosition where
  | PrefixPos
  | SuffixPos
  | ReplacePos
deriving DecidableEq, Repr

/-- Source struct `FileEntry` (the fields the core reads: `name`, `is_dir`,
`modified`); `modified` is the optional modification time in seconds since
the Unix epoch (`SystemTime` squashed through `duration_since(UNIX_EPOCH)`). -/
structure FileEntry where
  name : Str
  is_dir : Bool
  modified : Option Nat
deriving DecidableEq, Repr

/-- Source struct `RenamePreview`. -/
structure RenamePreview where
  original_name : Str
  new_name : Str
  will_change : Bool
  file_index : Nat
deriving DecidableEq, Repr

/-! ## Name Transformer (operations snapshot, lines 98-359) -/

/-- State machine of the character loop inside `apply_numbering`: `i` is the
`enumerate` index (a character ordinal), `hashStart` is `Some start` exactly
when `in_hash_sequence` is set.  Returns the accumulated `result` string and
the final `hashStart` (for the trailing-run fix-up done by the caller). -/
def numbScan (counter : Nat) : Nat → Option Nat → Str → Str × Option Nat
  | _, hashStart, [] => ([], hashStart)
  | i, hashStart, c :: rest =>
    if c = '#' then
      match hashStart with
      | some _ => numbScan counter (i + 1) hashStart rest
      | none => numbScan counter (i + 1) (some i) rest
    else
      match hashStart with
      | some hs =>
        let out := numbScan counter (i + 1) none rest
        (padZeros (i - hs) counter ++ c :: out.1, out.2)
      | none =>
        let out := numbScan counter (i + 1) none rest
        (c :: out.1, out.2)

/-- Source `apply_numbering` (operations snapshot, lines 137-187).  Faithful
to the source's unit mixture: the trailing hash run is padded to
`pattern.len() - hash_start`, where `pattern.len()` is the **byte** length
while `hash_start` is a **character** index from `chars().enumerate()`. -/
def apply_numbering (filename pattern : Str) (counter : Nat) : Str :=
  if pattern = [] then filename
  else
    let extension :=
      match splitAtLastDot filename with
      | some (_, e) => e
      | none => []
    let hashCount := (pattern.filter (fun c => c = '#')).length
    if hashCount = 0 then pattern ++ extension
    else
      let out := numbScan counter 0 none pattern
      let result :=
        match out.2 with
        | some hs => out.1 ++ padZeros (byteLen pattern - hs) counter
        | none => out.1
      result ++ extension

/-- Checked natural subtraction: models Rust `usize` subtraction, which
panics (in debug builds) on underflow. -/
def checkedSub (a b : Nat) : Option Nat := if b ≤ a then some (a - b) else none

/-- Checked splitting of a string at a byte offset: models Rust byte-index
slicing `(&s[..n], &s[n..])`, which panics when `n` is out of range or not
at a character boundary. -/
def byteSplitAt (n : Nat) : Str → Option (Str × Str)
  | [] => if n = 0 then some ([], []) else none
  | c :: rest =>
    if n = 0 then some ([], c :: rest)
    else if c.utf8Size ≤ n then
      (byteSplitAt (n - c.utf8Size) rest).map (fun p => (c :: p.1, p.2))
    else none

/-- Checked model of Rust slicing `&s[n..]`. -/
def byteDrop (n : Nat) (s : Str) : Option Str := (byteSplitAt n s).map (fun p => p.2)

/-- Checked model of Rust slicing `&s[..n]`. -/
def byteTake (n : Nat) (s : Str) : Option Str := (byteSplitAt n s).map (fun p => p.1)

/-- Source `apply_prefix` (operations snapshot, lines 190-205), with the
slice `&filename[prefix.len()..]` modelled as a checked byte slice. -/
def applyPrefixChecked (filename pre : Str) (action : PrefixAction) : Option Str :=
  if pre = [] then some filename
  else
    match action with
    | PrefixAction.Add => some (pre ++ filename)
    | PrefixAction.Remove =>
      if startsWith filename pre then byteDrop (byteLen pre) filename
      else some filename

/-- Source `apply_suffix` (operations snapshot, lines 208-230), with the
slice `&name[..name.len() - suffix.len()]` modelled as a checked `usize`
subtraction followed by a checked byte slice. -/
def applySuffixChecked (filename suf : Str) (action : PrefixAction) : Option Str :=
  if suf = [] then some filename
  else
    let parts :=
      match splitAtLastDot filename with
      | some p => p
      | none => (filename, [])
    match action with
    | PrefixAction.Add => some (parts.1 ++ suf ++ parts.2)
    | PrefixAction.Remove =>
      if endsWith parts.1 suf then
        match checkedSub (byteLen parts.1) (byteLen suf) with
        | some w => (byteTake w parts.1).map (fun kept => kept ++ parts.2)
        | none => none
      else some filename

/-- Source `is_leap_year` (operations snapshot, lines 287-289). -/
def is_leap_year (year : Nat) : Bool :=
  (year % 4 == 0 && year % 100 != 0) || year % 400 == 0

/-- Number of days in a civil year. -/
def daysInYear (year : Nat) : Nat := if is_leap_year year then 366 else 365

/-- Year-finding loop of `format_date`: starting from 1970, subtract whole
years from the day count until fewer days than a year remain. -/
def yearLoop (year rem : Nat) : Nat × Nat :=
  if rem < daysInYear year then (year, rem)
  else yearLoop (year + 1) (rem - daysInYear year)
termination_by rem
decreasing_by
  have hpos : 0 < daysInYear year := by unfold daysInYear; split <;> omega
  omega

/-- Month lengths used by `format_date`. -/
def daysInMonths (leap : Bool) : List Nat :=
  [31, if leap then 29 else 28, 31, 30, 31, 30, 31, 31, 30, 31, 30, 31]

/-- Month-finding loop of `format_date`. -/
def monthLoop : List Nat → Nat → Nat → Nat × Nat
  | [], m, rem => (m, rem)
  | d :: ds, m, rem => if rem < d then (m, rem) else monthLoop ds (m + 1) (rem - d)

/-- Source `format_date` (operations snapshot, lines 233-284) on the number
of seconds since the Unix epoch (`duration_since(UNIX_EPOCH)` of a
`SystemTime` that is not before the epoch; earlier times already collapsed
to 0 by `unwrap_or_default`). -/
def format_date (secs : Nat) : Str :=
  let days := secs / 86400
  let yr := yearLoop 1970 days
  let mr := monthLoop (daysInMonths (is_leap_year yr.1)) 1 yr.2
  let day := mr.2 + 1
  padZeros 4 yr.1 ++ padZeros 2 mr.1 ++ padZeros 2 day

/-- Source `apply_date_insert` (operations snapshot, lines 292-314). -/
def apply_date_insert (filename : Str) (position : DatePosition)
    (modified : Option Nat) : Str :=
  let dateStr :=
    match modified with
    | some t => format_date t
    | none => str "00000000"
  let parts :=
    match splitAtLastDot filename with
    | some p => p
    | none => (filename, [])
  match position with
  | DatePosition.PrefixPos => dateStr ++ '_' :: (parts.1 ++ parts.2)
  | DatePosition.SuffixPos => parts.1 ++ '_' :: (dateStr ++ parts.2)
  | DatePosition.ReplacePos => dateStr ++ parts.2

/-- Source `to_uppercase_preserve_extension`: uppercase the stem, lowercase
the extension; `split_at(dot_pos)` is at a character boundary by
construction, hence modelled by `splitAtLastDot`. -/
def to_uppercase_preserve_extension (filename : Str) : Str :=
  match splitAtLastDot filename with
  | some p => strUpper p.1 ++ strLower p.2
  | none => strUpper filename

/-- Source `to_lowercase_preserve_extension`: the whole name is lowered. -/
def to_lowercase_preserve_extension (filename : Str) : Str := strLower filename

/-- Character loop of the source `to_titlecase`; `cap` is
`capitalize_next`.  Rust's `extend(c.to_uppercase())` is modelled by the
charwise case map. -/
def toTitlecaseCore : Bool → Str → Str
  | _, [] => []
  | cap, c :: cs =>
    if c.isWhitespace || c == '_' || c == '-' then c :: toTitlecaseCore true cs
    else if cap then Char.toUpper c :: toTitlecaseCore false cs
    else Char.toLower c :: toTitlecaseCore false cs

/-- Source `to_titlecase` (operations snapshot, lines 342-359). -/
def to_titlecase (s : Str) : Str := toTitlecaseCore true s

/-- Source `to_titlecase_preserve_extension`. -/
def to_titlecase_preserve_extension (filename : Str) : Str :=
  match splitAtLastDot filename with
  | some p => to_titlecase p.1 ++ strLower p.2
  | none => to_titlecase filename

/-- Model of a compiled regular expression of the external `regex` crate:
all the core uses is `replace_all(filename, replace)`. -/
structure Regexish where
  replaceAll : Str → Str → Str

/-- Literal replacement loop, modelling Rust `str::replace` (every
non-overlapping occurrence, leftmost first).  The fuel is always sufficient
for the non-empty patterns the caller guards for. -/
def strReplaceCore (pat repl : Str) : Nat → Str → Str
  | 0, s => s
  | fuel + 1, s =>
    if startsWith s pat then repl ++ strReplaceCore pat repl fuel (s.drop pat.length)
    else
      match s with
      | [] => []
      | c :: rest => c :: strReplaceCore pat repl fuel rest

/-- Rust `str::replace`. -/
def strReplace (s pat repl : Str) : Str := strReplaceCore pat repl (s.length + 1) s

/-- Source `apply_rename_mode` (operations snapshot, lines 98-133), with
every potentially panicking byte-slice operation modelled as a checked
operation: a `none` result corresponds to a Rust panic. -/
def apply_rename_mode_checked (filename search replace : Str) (mode : RenameMode)
    (prefix_action : PrefixAction) (regex : Option Regexish) (counter : Nat)
    (date_position : DatePosition) (modified : Option Nat) : Option Str :=
  match mode with
  | RenameMode.SearchReplace =>
    some (if search = [] then filename else strReplace filename search replace)
  | RenameMode.Regex =>
    some (match regex with
          | some re => re.replaceAll filename replace
          | none => filename)
  | RenameMode.Numbering => some (apply_numbering filename search counter)
  | RenameMode.PrefixMode => applyPrefixChecked filename search prefix_action
  | RenameMode.SuffixMode => applySuffixChecked filename search prefix_action
  | RenameMode.DateInsert => some (apply_date_insert filename date_position modified)
  | RenameMode.Uppercase => some (to_uppercase_preserve_extension filename)
  | RenameMode.Lowercase => some (to_lowercase_preserve_extension filename)
  | RenameMode.TitleCase => some (to_titlecase_preserve_extension filename)

/-- Value of `apply_rename_mode` on the non-panicking path (the only path,
as proved below for the non-regex modes). -/
def apply_rename_mode (filename search replace : Str) (mode : RenameMode)
    (prefix_action : PrefixAction) (regex : Option Regexish) (counter : Nat)
    (date_position : DatePosition) (modified : Option Nat) : Str :=
  (apply_rename_mode_checked filename search replace mode prefix_action regex
    counter date_position modified).getD filename

/-! ## Error model

Errors that the source renders as formatted German strings are kept
structured, carrying exactly the data the source interpolates. -/

/-- One validation failure inside `execute_renames` (the source pushes one
formatted message per violating preview). -/
inductive ValError where
  | sourceMissing (original_name : Str)
  | destExists (new_name : Str)
  | invalidChar (new_name : Str)
  | emptyName
deriving DecidableEq, Repr

/-- One per-entry problem inside `undo_last_rename`. -/
inductive UndoError where
  | fileGone (new_name : Str)
  | nameTaken (original_name : Str)
  | renameFailed (new_name : Str)
deriving DecidableEq, Repr

/-- Error results of the core operations. -/
inductive RnmError where
  | patternError (msg : Str)
  | validationFailed (errors : List ValError)
  | execFailed (original_name new_name : Str)
  | nothingToUndo
  | undoFailed (errors : List UndoError)
  | historyError
deriving DecidableEq, Repr

/-! ## Preview Generator (operations snapshot, lines 25-96) -/

/-- Static arguments of `generate_previews`, bundled for readability. -/
structure ModeArgs where
  search : Str
  replace : Str
  mode : RenameMode
  prefix_action : PrefixAction
  number_start : Nat
  number_step : Nat
  date_position : DatePosition
deriving Repr

/-- Counter update at the end of the loop body: `counter += number_step`,
done only in numbering mode. -/
def stepCounter (a : ModeArgs) (counter : Nat) : Nat :=
  if a.mode = RenameMode.Numbering then counter + a.number_step else counter

/-- Loop body of `generate_previews`: build the preview of one file. -/
def mkPreview (a : ModeArgs) (regex : Option Regexish) (i : Nat) (f : FileEntry)
    (counter : Nat) : RenamePreview :=
  let new_name := apply_rename_mode f.name a.search a.replace a.mode a.prefix_action
    regex counter a.date_position f.modified
  { original_name := f.name
    new_name := new_name
    will_change := new_name != f.name
    file_index := i }

/-- Main loop of `generate_previews` over the chosen index list, threading
the numbering counter; out-of-range indices (`files.get(index)` misses) and
directories are skipped. -/
def previewLoop (files : List FileEntry) (a : ModeArgs) (regex : Option Regexish) :
    List Nat → Nat → List RenamePreview
  | [], _ => []
  | i :: rest, counter =>
    match files.get? i with
    | none => previewLoop files a regex rest counter
    | some f =>
      if f.is_dir then previewLoop files a regex rest counter
      else mkPreview a regex i f counter ::
        previewLoop files a regex rest (stepCounter a counter)

/-- Final `previews.sort_by(|a, b| a.original_name.cmp(&b.original_name))`;
Rust's byte-lexicographic `String` order coincides with the
character-lexicographic order on the model. -/
def sortByName (l : List RenamePreview) : List RenamePreview :=
  List.insertionSort (fun p q => p.original_name ≤ q.original_name) l

/-- Regex pre-compilation step of `generate_previews` (lines 47-52): the
external compiler is a parameter. -/
def compiledRegex (a : ModeArgs) (compile : Str → Except Str Regexish) :
    Except RnmError (Option Regexish) :=
  if a.mode = RenameMode.Regex ∧ a.search ≠ [] then
    match compile a.search with
    | Except.ok re => Except.ok (some re)
    | Except.error e => Except.error (RnmError.patternError e)
  else Except.ok none

/-- Source `generate_previews` (operations snapshot, lines 25-96).  The
selection `HashSet` is modelled as a duplicate-free list; the source sorts
it ascending before use, making iteration order irrelevant. -/
def generate_previews (files : List FileEntry) (selected : List Nat) (a : ModeArgs)
    (compile : Str → Except Str Regexish) : Except RnmError (List RenamePreview) :=
  let indices := if selected = [] then List.range files.length else
    List.insertionSort (fun i j => i ≤ j) selected
  match compiledRegex a compile with
  | Except.error e => Except.error e
  | Except.ok regex =>
    Except.ok (sortByName (previewLoop files a regex indices a.number_start))

/-- Selection step of the loop body: an index is processed exactly when it
is in range and does not denote a directory; the processed pair keeps the
index for the `file_index` field. -/
def pickIndexed (files : List FileEntry) (i : Nat) : Option (Nat × FileEntry) :=
  (files.get? i).bind (fun f => if f.is_dir then none else some (i, f))

/-- Modelled from the spec (specification-side restatement for the
refinement claim about `generate_previews`): which `(index, file)` pairs are
processed — all non-directory in-range files when the selection is empty,
otherwise the selected in-range non-directory indices in ascending order. -/
def specSelected (files : List FileEntry) (selected : List Nat) : List (Nat × FileEntry) :=
  (if selected = [] then List.range files.length else
    List.insertionSort (fun i j => i ≤ j) selected).filterMap (pickIndexed files)

/-- Modelled from the spec (specification-side restatement): the counter
starts at `number_start` and is incremented by `number_step` once per
processed file, in processing order. -/
def specAssign (a : ModeArgs) (regex : Option Regexish) :
    List (Nat × FileEntry) → Nat → List RenamePreview
  | [], _ => []
  | p :: rest, counter =>
    mkPreview a regex p.1 p.2 counter :: specAssign a regex rest (stepCounter a counter)

/-! ## History Store (src/.history/src/config_20251204122456.rs, lines 11-135) -/

/-- Source struct `RenameHistoryEntry`. -/
structure RenameHistoryEntry where
  original_name : Str
  new_name : Str
deriving DecidableEq, Repr

/-- Source struct `RenameOperation`; the timestamp is seconds since the
Unix epoch, the directory a path string. -/
structure RenameOperation where
  timestamp : Nat
  directory : Str
  entries : List RenameHistoryEntry
  description : Str
deriving DecidableEq, Repr

/-- Source struct `RenameHistory`: operations ordered most recent last. -/
structure RenameHistory where
  operations : List RenameOperation
deriving DecidableEq, Repr

/-- Source constant `RenameHistory::MAX_HISTORY`. -/
def MAX_HISTORY : Nat := 50

/-- Source `RenameHistory::add_operation` (config snapshot, lines 108-114):
push at the most-recent end, then drop the oldest entry (`remove(0)`) if
the bound is exceeded. -/
def RenameHistory.add_operation (h : RenameHistory) (op : RenameOperation) :
    RenameHistory :=
  if (h.operations ++ [op]).length > MAX_HISTORY then ⟨(h.operations ++ [op]).drop 1⟩
  else ⟨h.operations ++ [op]⟩

/-! ## Validator + Executor (operations snapshot, lines 361-457) -/

/-- Model of `directory.join(name)` for a Unix path separator. -/
def pathJoin (dir name : Str) : Str := dir ++ '/' :: name

/-- Validation of a single `will_change` preview (operations snapshot,
lines 377-412): at most one error is recorded per preview, the first check
that fails (each check ends with `continue`).  `fs` is the list of paths
that exist at validation time. -/
def validateOne (dir : Str) (fs : List Str) (p : RenamePreview) : Option ValError :=
  let oldPath := pathJoin dir p.original_name
  let newPath := pathJoin dir p.new_name
  if ¬ fs.contains oldPath then some (ValError.sourceMissing p.original_name)
  else if fs.contains newPath ∧ oldPath ≠ newPath ∧
      strLower oldPath ≠ strLower newPath then
    some (ValError.destExists p.new_name)
  else if p.new_name.contains '/' ∨ p.new_name.contains '\\' then
    some (ValError.invalidChar p.new_name)
  else if p.new_name = [] then some ValError.emptyName
  else none

/-- Effect of one successful `std::fs::rename(old, new)` on the set of
existing paths. -/
def applyRename (fs : List Str) (oldP newP : Str) : List Str :=
  newP :: fs.erase oldP

/-- Execution loop (operations snapshot, lines 419-441): renames are
attempted sequentially; each success is recorded as a history entry; the
first failure stops the loop and is reported as the failing pair.  The
success of an individual `std::fs::rename` call is the oracle `renameOk`. -/
def renameAll (renameOk : Str → Str → Bool) (dir : Str) :
    List RenamePreview → List Str → List RenameHistoryEntry →
    List Str × List RenameHistoryEntry × Option (Str × Str)
  | [], fs, acc => (fs, acc, none)
  | p :: rest, fs, acc =>
    let oldP := pathJoin dir p.original_name
    let newP := pathJoin dir p.new_name
    if renameOk oldP newP then
      renameAll renameOk dir rest (applyRename fs oldP newP)
        (acc ++ [⟨p.original_name, p.new_name⟩])
    else (fs, acc, some (p.original_name, p.new_name))

/-- Cumulative filesystem effect of successfully renaming a list of
previews in order, used to state what the execution loop has applied when
it stops. -/
def applyAllRenames (dir : Str) (fs : List Str) (ps : List RenamePreview) : List Str :=
  ps.foldl (fun acc p =>
    applyRename acc (pathJoin dir p.original_name) (pathJoin dir p.new_name)) fs

/-- History entries recorded for a list of successfully renamed previews. -/
def toEntries (ps : List RenamePreview) : List RenameHistoryEntry :=
  ps.map (fun p => ⟨p.original_name, p.new_name⟩)

/-- Result of `execute_renames_with_history` together with the final
filesystem state and the final persisted history. -/
structure ExecOutcome where
  result : Except RnmError Nat
  fs : List Str
  history : RenameHistory
deriving Repr

/-- Source `execute_renames_with_history` (operations snapshot, lines
367-457).  `history` is the content of the history store (the source loads
it, mutates, saves; save failures are swallowed and load failures skip the
recording, neither affects the returned result). -/
def execute_renames_with_history (previews : List RenamePreview) (dir : Str)
    (description : Option Str) (timestamp : Nat) (fs : List Str)
    (renameOk : Str → Str → Bool) (history : RenameHistory) : ExecOutcome :=
  let changing := previews.filter (fun p => p.will_change)
  let errors := changing.filterMap (validateOne dir fs)
  if errors ≠ [] then
    { result := Except.error (RnmError.validationFailed errors)
      fs := fs, history := history }
  else
    let out := renameAll renameOk dir changing fs []
    match out.2.2 with
    | some pr =>
      { result := Except.error (RnmError.execFailed pr.1 pr.2)
        fs := out.1, history := history }
    | none =>
      let entries := out.2.1
      let history' :=
        if entries ≠ [] ∧ description.isSome = true then
          history.add_operation
            ⟨timestamp, dir, entries, description.getD (str "Umbenennung")⟩
        else history
      { result := Except.ok entries.length, fs := out.1, history := history' }

/-- Source `execute_renames` (operations snapshot, lines 362-364 and
src/src/operations.rs lines 125-193, which shares the same validation and
execution logic). -/
def execute_renames (previews : List RenamePreview) (dir : Str) (timestamp : Nat)
    (fs : List Str) (renameOk : Str → Str → Bool) (history : RenameHistory) :
    ExecOutcome :=
  execute_renames_with_history previews dir (some (str "Umbenennung")) timestamp
    fs renameOk history

/-! ## Undo Engine (operations snapshot, lines 460-535) -/

/-- Per-entry validation pass of `undo_last_rename` (lines 472-497) against
the initial filesystem state; skipped entries push one error each. -/
def undoValidateOne (dir : Str) (fs : List Str) (e : RenameHistoryEntry) :
    Option UndoError :=
  let currentPath := pathJoin dir e.new_name
  let originalPath := pathJoin dir e.original_name
  if ¬ fs.contains currentPath then some (UndoError.fileGone e.new_name)
  else if fs.contains originalPath ∧ currentPath ≠ originalPath ∧
      strLower currentPath ≠ strLower originalPath then
    some (UndoError.nameTaken e.original_name)
  else none

/-- Execution pass of `undo_last_rename` (lines 500-525): re-checks each
entry against the current (evolving) filesystem state, skips silently on
the re-checks, counts successes, and appends one error per failed rename
to the error list accumulated by the validation pass. -/
def undoExec (renameOk : Str → Str → Bool) (dir : Str) :
    List RenameHistoryEntry → List Str → Nat → List UndoError →
    List Str × Nat × List UndoError
  | [], fs, cnt, errs => (fs, cnt, errs)
  | e :: rest, fs, cnt, errs =>
    let currentPath := pathJoin dir e.new_name
    let originalPath := pathJoin dir e.original_name
    if ¬ fs.contains currentPath then undoExec renameOk dir rest fs cnt errs
    else if fs.contains originalPath ∧ currentPath ≠ originalPath ∧
        strLower currentPath ≠ strLower originalPath then
      undoExec renameOk dir rest fs cnt errs
    else if renameOk currentPath originalPath then
      undoExec renameOk dir rest (applyRename fs currentPath originalPath) (cnt + 1) errs
    else
      undoExec renameOk dir rest fs cnt (errs ++ [UndoError.renameFailed e.new_name])

/-- Both passes of `undo_last_rename` over one popped operation: final
filesystem state, number of undone entries, and the collected errors. -/
def undoCore (renameOk : Str → Str → Bool) (op : RenameOperation) (fs : List Str) :
    List Str × Nat × List UndoError :=
  undoExec renameOk op.directory op.entries fs 0
    (op.entries.filterMap (undoValidateOne op.directory fs))

/-- Result of `undo_last_rename` together with the final on-disk history
and filesystem state. -/
structure UndoOutcome where
  result : Except RnmError (Nat × Str)
  diskHistory : RenameHistory
  fs : List Str
deriving Repr

/-- Source `undo_last_rename` (operations snapshot, lines 460-535).
`history` is the loaded history store content; `saveOk` is whether the
`history.save()` call succeeds (its failure propagates through `?`). -/
def undo_last_rename (history : RenameHistory) (fs : List Str)
    (renameOk : Str → Str → Bool) (saveOk : Bool) : UndoOutcome :=
  match history.operations.getLast? with
  | none =>
    { result := Except.error RnmError.nothingToUndo, diskHistory := history, fs := fs }
  | some op =>
    let poppedHistory : RenameHistory := ⟨history.operations.dropLast⟩
    let out := undoCore renameOk op fs
    if saveOk = false then
      { result := Except.error RnmError.historyError, diskHistory := history, fs := out.1 }
    else if out.2.1 = 0 ∧ out.2.2 ≠ [] then
      { result := Except.error (RnmError.undoFailed out.2.2)
        diskHistory := poppedHistory, fs := out.1 }
    else
      { result := Except.ok (out.2.1, op.directory)
        diskHistory := poppedHistory, fs := out.1 }

/-! ## Slicing safety lemmas -/

theorem byteLen_append (a b : Str) : byteLen (a ++ b) = byteLen a + byteLen b := by
  simp [byteLen]

theorem byteLen_cons (c : Char) (a : Str) :
    byteLen (c :: a) = c.utf8Size + byteLen a := by
  simp [byteLen]

theorem startsWith_iff (p : Str) : ∀ s : Str, startsWith s p = true ↔ ∃ t, s = p ++ t := by
  induction p with
  | nil =>
    intro s
    cases s <;> simp [startsWith]
  | cons q ps ih =>
    intro s
    cases s with
    | nil => simp [startsWith]
    | cons c cs =>
      simp only [startsWith, Bool.and_eq_true, beq_iff_eq, ih, List.cons_append,
        List.cons.injEq]
      constructor
      · rintro ⟨rfl, t, rfl⟩
        exact ⟨t, rfl, rfl⟩
      · rintro ⟨t, rfl, rfl⟩
        exact ⟨rfl, t, rfl⟩

theorem endsWith_iff (s p : Str) : endsWith s p = true ↔ ∃ t, s = t ++ p := by
  unfold endsWith
  rw [startsWith_iff]
  constructor
  · rintro ⟨t, ht⟩
    refine ⟨t.reverse, ?_⟩
    have := congrArg List.reverse ht
    simpa using this
  · rintro ⟨t, rfl⟩
    exact ⟨t.reverse, by simp⟩

theorem byteSplitAt_append (a b : Str) : byteSplitAt (byteLen a) (a ++ b) = some (a, b) := by
  induction a with
  | nil =>
    cases b <;> simp [byteSplitAt, byteLen]
  | cons c a' ih =>
    have hpos := Char.utf8Size_pos c
    simp only [List.cons_append, byteSplitAt, byteLen_cons]
    rw [if_neg (by omega), if_pos (by omega)]
    simp [ih]

/-- Per-claim C9 groundwork: the checked prefix transform never hits the
panicking path. -/
theorem applyPrefixChecked_isSome (filename pre : Str) (action : PrefixAction) :
    (applyPrefixChecked filename pre action).isSome = true := by
  cases action with
  | Add =>
    unfold applyPrefixChecked
    split <;> rfl
  | Remove =>
    unfold applyPrefixChecked
    split
    · rfl
    · by_cases hsw : startsWith filename pre = true
      · obtain ⟨t, rfl⟩ := (startsWith_iff pre filename).mp hsw
        simp [hsw, byteDrop, byteSplitAt_append]
      · simp [hsw]

/-- Per-claim C9 groundwork: the checked suffix transform never hits the
panicking path. -/
theorem applySuffixChecked_isSome (filename suf : Str) (action : PrefixAction) :
    (applySuffixChecked filename suf action).isSome = true := by
  cases action with
  | Add =>
    unfold applySuffixChecked
    split <;> rfl
  | Remove =>
    unfold applySuffixChecked
    split
    · rfl
    · by_cases hew : endsWith (match splitAtLastDot filename with
        | some p => p
        | none => (filename, [])).1 suf = true
      · obtain ⟨t, ht⟩ := (endsWith_iff _ suf).mp hew
        simp only [hew, if_true]
        rw [ht, byteLen_append, checkedSub]
        rw [if_pos (by omega)]
        simp only [Nat.add_sub_cancel]
        simp [byteTake, byteSplitAt_append]
      · simp [hew]

/-! ## Claim theorems -/

/-- Claim C4 (settled as a code bug): the concrete spec examples hold
(`test.jpg` with pattern `file_####` and counter 42 gives `file_0042.jpg`,
with `img#` and counter 5 gives `img5.jpg`, the empty pattern returns the
filename unchanged, a hash-free pattern is used verbatim with the original
extension appended), but a trailing run of `#` is padded to
`pattern.len() - hash_start`, which mixes the byte length of the pattern
with a character index: for the pattern `ä#` with counter 5 the single-`#`
run is padded to width 2, yielding `ä05.jpg` instead of the claimed
`ä5.jpg`. -/
theorem apply_numbering_run_padding_byte_bug :
    apply_numbering (str "test.jpg") (str "file_####") 42 = str "file_0042.jpg" ∧
    apply_numbering (str "test.jpg") (str "img#") 5 = str "img5.jpg" ∧
    apply_numbering (str "test.jpg") [] 3 = str "test.jpg" ∧
    apply_numbering (str "test.jpg") (str "plain") 3 = str "plain.jpg" ∧
    apply_numbering (str "test.jpg") (str "p##q##r") 7 = str "p07q07r.jpg" ∧
    apply_numbering (str "test.jpg") (str "ä#") 5 = str "ä05.jpg" ∧
    apply_numbering (str "test.jpg") (str "ä#") 5 ≠ str "ä5.jpg" := by
  decide

/-- Claim C9: for every filename (with or without extension, or empty) and
all parameter values, the name transform of every non-regex mode is total
and never panics: in the checked embedding, in which `none` marks a Rust
panic (out-of-range or non-boundary byte slice, `usize` underflow), the
transform always returns a value. -/
theorem apply_rename_mode_total_non_regex (filename search replace : Str)
    (mode : RenameMode) (prefix_action : PrefixAction) (regex : Option Regexish)
    (counter : Nat) (date_position : DatePosition) (modified : Option Nat)
    (hmode : mode ≠ RenameMode.Regex) :
    (apply_rename_mode_checked filename search replace mode prefix_action regex
      counter date_position modified).isSome = true := by
  cases mode
  case Regex => exact absurd rfl hmode
  case PrefixMode => exact applyPrefixChecked_isSome filename search prefix_action
  case SuffixMode => exact applySuffixChecked_isSome filename search prefix_action
  all_goals rfl

/-- Witness for C9: the suffix-removal transform at a concrete input. -/
theorem apply_rename_mode_total_non_regex_witness :
    RenameMode.SuffixMode ≠ RenameMode.Regex ∧
    (apply_rename_mode_checked (str "photo_old.jpg") (str "_old") [] RenameMode.SuffixMode
      PrefixAction.Remove none 7 DatePosition.PrefixPos none).isSome = true :=
  ⟨by decide, apply_rename_mode_total_non_regex (str "photo_old.jpg") (str "_old") []
    RenameMode.SuffixMode PrefixAction.Remove none 7 DatePosition.PrefixPos none (by decide)⟩

/-- Claim C8: in Regex mode with a non-empty search string that does not
compile, `generate_previews` returns the pattern error and produces no
preview list at all. -/
theorem generate_previews_invalid_regex_error (files : List FileEntry)
    (selected : List Nat) (a : ModeArgs) (compile : Str → Except Str Regexish)
    (e : Str) (hmode : a.mode = RenameMode.Regex) (hsearch : a.search ≠ [])
    (hcompile : compile a.search = Except.error e) :
    generate_previews files selected a compile =
      Except.error (RnmError.patternError e) := by
  have hc : compiledRegex a compile = Except.error (RnmError.patternError e) := by
    unfold compiledRegex
    rw [if_pos (And.intro hmode hsearch), hcompile]
  unfold generate_previews
  rw [hc]

/-- Witness for C8: a concrete failing compiler aborts the whole call. -/
theorem generate_previews_invalid_regex_error_witness :
    generate_previews [⟨str "test.txt", false, none⟩] []
      ⟨str "[bad", str "x", RenameMode.Regex, PrefixAction.Add, 1, 1, DatePosition.PrefixPos⟩
      (fun _ => Except.error (str "parse error")) =
      Except.error (RnmError.patternError (str "parse error")) :=
  generate_previews_invalid_regex_error _ _ _ _ _ rfl (by decide) rfl

/-- Claim C1: whenever any `will_change` preview violates a validation rule,
`execute_renames_with_history` returns one aggregated validation report
(the collected error list, one entry per violating preview: every violating
preview's error is in the report), and performs zero filesystem renames —
the filesystem and the history store are unchanged. -/
theorem execute_renames_validation_rejects_batch (previews : List RenamePreview)
    (dir : Str) (description : Option Str) (timestamp : Nat) (fs : List Str)
    (renameOk : Str → Str → Bool) (history : RenameHistory)
    (herr : (previews.filter (fun p => p.will_change)).filterMap (validateOne dir fs) ≠ []) :
    execute_renames_with_history previews dir description timestamp fs renameOk history =
      { result := Except.error (RnmError.validationFailed
          ((previews.filter (fun p => p.will_change)).filterMap (validateOne dir fs)))
        fs := fs
        history := history } ∧
    ∀ p ∈ previews.filter (fun p => p.will_change), ∀ e, validateOne dir fs p = some e →
      e ∈ (previews.filter (fun p => p.will_change)).filterMap (validateOne dir fs) := by
  constructor
  · unfold execute_renames_with_history
    rw [if_pos herr]
  · intro p hp e he
    exact List.mem_filterMap.mpr ⟨p, hp, he⟩

/-- Witness for C1: a batch with one missing-source conflict and one
illegal-character conflict reports both, in one report, with the filesystem
and history untouched. -/
theorem execute_renames_validation_rejects_batch_witness :
    execute_renames_with_history
      [⟨str "a.txt", str "a2.txt", true, 0⟩, ⟨str "b.txt", str "x/y.txt", true, 1⟩]
      (str "/d") none 0 [pathJoin (str "/d") (str "b.txt")] (fun _ _ => true) ⟨[]⟩ =
      { result := Except.error (RnmError.validationFailed
          [ValError.sourceMissing (str "a.txt"), ValError.invalidChar (str "x/y.txt")])
        fs := [pathJoin (str "/d") (str "b.txt")]
        history := ⟨[]⟩ } :=
  (execute_renames_validation_rejects_batch
    [⟨str "a.txt", str "a2.txt", true, 0⟩, ⟨str "b.txt", str "x/y.txt", true, 1⟩]
    (str "/d") none 0 [pathJoin (str "/d") (str "b.txt")] (fun _ _ => true) ⟨[]⟩
    (by decide)).1.trans rfl

/-- Names joined to the same directory are equal exactly when the names
are. -/
theorem pathJoin_inj (dir a b : Str) : pathJoin dir a = pathJoin dir b ↔ a = b := by
  unfold pathJoin
  constructor
  · intro h
    have h2 := List.append_cancel_left h
    exact List.cons.injEq .. ▸ h2 |>.2
  · intro h
    rw [h]

/-- Claim C5: for a validated preview whose source exists, a destination
collision is reported exactly when the destination path exists and differs
from the source path in more than letter case; a case-only rename is never
reported as a destination collision. -/
theorem validation_permits_case_only_rename (dir : Str) (fs : List Str)
    (p : RenamePreview)
    (hsrc : fs.contains (pathJoin dir p.original_name) = true)
    (hne : p.new_name ≠ p.original_name) :
    validateOne dir fs p = some (ValError.destExists p.new_name) ↔
      (fs.contains (pathJoin dir p.new_name) = true ∧
        strLower (pathJoin dir p.original_name) ≠ strLower (pathJoin dir p.new_name)) := by
  have hpne : pathJoin dir p.original_name ≠ pathJoin dir p.new_name :=
    fun h => hne ((pathJoin_inj dir p.original_name p.new_name).mp h).symm
  unfold validateOne
  simp only [hsrc, not_true_eq_false, if_false]
  by_cases hcoll : fs.contains (pathJoin dir p.new_name) = true ∧
      pathJoin dir p.original_name ≠ pathJoin dir p.new_name ∧
      strLower (pathJoin dir p.original_name) ≠ strLower (pathJoin dir p.new_name)
  · rw [if_pos hcoll]
    simp only [Option.some.injEq]
    constructor
    · intro _
      exact ⟨hcoll.1, hcoll.2.2⟩
    · intro _
      trivial
  · rw [if_neg hcoll]
    constructor
    · intro h
      exfalso
      split at h
      · exact ValError.noConfusion (Option.some.injEq .. ▸ h)
      · split at h
        · exact ValError.noConfusion (Option.some.injEq .. ▸ h)
        · exact Option.noConfusion h
    · intro hrhs
      exact absurd ⟨hrhs.1, hpne, hrhs.2⟩ hcoll

/-- Witness for C5: renaming `Test.txt` to `test.txt` in the same directory,
with the destination reported as existing, is not a destination collision. -/
theorem validation_permits_case_only_rename_witness :
    validateOne (str "/d")
      [pathJoin (str "/d") (str "Test.txt"), pathJoin (str "/d") (str "test.txt")]
      ⟨str "Test.txt", str "test.txt", true, 0⟩ ≠
      some (ValError.destExists (str "test.txt")) :=
  fun h =>
    ((validation_permits_case_only_rename (str "/d")
      [pathJoin (str "/d") (str "Test.txt"), pathJoin (str "/d") (str "test.txt")]
      ⟨str "Test.txt", str "test.txt", true, 0⟩ (by decide) (by decide)).mp h).2 (by decide)

/-- Folding `add_operation` from the empty history keeps the most recent
`MAX_HISTORY` operations. -/
theorem foldl_add_operation_drop (l : List RenameOperation) :
    (l.foldl RenameHistory.add_operation ⟨[]⟩).operations =
      l.drop (l.length - MAX_HISTORY) := by
  induction l using List.reverseRecOn with
  | nil => rfl
  | append_singleton l a ih =>
    rw [List.foldl_append, List.foldl_cons, List.foldl_nil]
    set X := List.foldl RenameHistory.add_operation ⟨[]⟩ l with hX
    unfold RenameHistory.add_operation
    rw [ih]
    by_cases hlen : l.length + 1 ≤ MAX_HISTORY
    · have h0 : l.length - MAX_HISTORY = 0 := by omega
      have h1 : (l ++ [a]).length - MAX_HISTORY = 0 := by
        rw [List.length_append, List.length_singleton]; omega
      rw [h0, h1, List.drop_zero, List.drop_zero]
      rw [if_neg (by
        rw [List.length_append, List.length_singleton]
        omega)]
    · have hge : MAX_HISTORY ≤ l.length := by omega
      have hlendrop : (l.drop (l.length - MAX_HISTORY)).length = MAX_HISTORY := by
        rw [List.length_drop]; omega
      rw [if_pos (by
        rw [List.length_append, hlendrop, List.length_singleton]
        unfold MAX_HISTORY
        omega)]
      have hone : 1 ≤ (l.drop (l.length - MAX_HISTORY)).length := by
        rw [hlendrop]; unfold MAX_HISTORY; omega
      rw [List.drop_append_of_le_length hone, List.drop_drop]
      have hle2 : (l ++ [a]).length - MAX_HISTORY ≤ l.length := by
        rw [List.length_append, List.length_singleton]; omega
      rw [List.drop_append_of_le_length hle2]
      have heq : l.length - MAX_HISTORY + 1 = (l ++ [a]).length - MAX_HISTORY := by
        rw [List.length_append, List.length_singleton]; omega
      rw [heq]

/-- Claim C6: the rename history is bounded by `MAX_HISTORY = 50`:
`add_operation` appends at the most-recent end, evicts the oldest entry
first when the bound is exceeded and preserves the bound, and pushing 51
operations into an initially empty history leaves exactly the last 50, the
oldest evicted. -/
theorem history_bounded_fifo :
    (∀ (h : RenameHistory) (op : RenameOperation),
      h.operations.length ≤ MAX_HISTORY →
        (h.add_operation op).operations.length ≤ MAX_HISTORY ∧
        (h.add_operation op).operations =
          (if h.operations.length < MAX_HISTORY then h.operations
           else h.operations.drop 1) ++ [op]) ∧
    ∀ (l : List RenameOperation), l.length = 51 →
      (l.foldl RenameHistory.add_operation ⟨[]⟩).operations = l.drop 1 ∧
      (l.foldl RenameHistory.add_operation ⟨[]⟩).operations.length = 50 := by
  constructor
  · intro h op hle
    unfold RenameHistory.add_operation
    by_cases hfull : h.operations.length < MAX_HISTORY
    · rw [if_neg (by rw [List.length_append, List.length_singleton]; omega), if_pos hfull]
      constructor
      · rw [List.length_append, List.length_singleton]; omega
      · rfl
    · have hlen50 : h.operations.length = MAX_HISTORY := by omega
      have hone : 1 ≤ h.operations.length := by rw [hlen50]; unfold MAX_HISTORY; omega
      rw [if_pos (by rw [List.length_append, List.length_singleton]; omega), if_neg hfull]
      constructor
      · rw [List.drop_append_of_le_length hone, List.length_append,
          List.length_drop, List.length_singleton]
        omega
      · rw [List.drop_append_of_le_length hone]
  · intro l hlen
    have h := foldl_add_operation_drop l
    have h51 : l.length - MAX_HISTORY = 1 := by
      rw [hlen]; unfold MAX_HISTORY; omega
    rw [h51] at h
    refine ⟨h, ?_⟩
    rw [h, List.length_drop, hlen]

/-- Witness for C6: a 50-element history evicts its oldest entry on the
next push, and folding 51 pushes from the empty history keeps the last
50. -/
theorem history_bounded_fifo_witness :
    ((⟨List.replicate 50 (⟨0, str "/d", [], str "x"⟩ : RenameOperation)⟩ :
        RenameHistory).add_operation ⟨1, str "/d", [], str "y"⟩).operations.length ≤
      MAX_HISTORY ∧
    ((List.replicate 51 (⟨0, str "/d", [], str "x"⟩ : RenameOperation)).foldl
        RenameHistory.add_operation ⟨[]⟩).operations =
      (List.replicate 51 (⟨0, str "/d", [], str "x"⟩ : RenameOperation)).drop 1 :=
  ⟨(history_bounded_fifo.1 ⟨List.replicate 50 ⟨0, str "/d", [], str "x"⟩⟩
      ⟨1, str "/d", [], str "y"⟩ (by decide)).1,
    (history_bounded_fifo.2 (List.replicate 51 ⟨0, str "/d", [], str "x"⟩) (by decide)).1⟩

/-- Execution loop on a batch whose every rename succeeds: all renames are
applied in order and recorded, and no failure is reported. -/
theorem renameAll_all_ok (renameOk : Str → Str → Bool) (dir : Str) :
    ∀ (l : List RenamePreview) (fs : List Str) (acc : List RenameHistoryEntry),
      (∀ q ∈ l, renameOk (pathJoin dir q.original_name) (pathJoin dir q.new_name) = true) →
      renameAll renameOk dir l fs acc = (applyAllRenames dir fs l, acc ++ toEntries l, none) := by
  intro l
  induction l with
  | nil =>
    intro fs acc _
    simp [renameAll, applyAllRenames, toEntries]
  | cons q rest ih =>
    intro fs acc hall
    have hq := hall q (List.mem_cons_self q rest)
    simp only [renameAll, hq, if_true]
    rw [ih _ _ (fun r hr => hall r (List.mem_cons_of_mem q hr))]
    simp [applyAllRenames, toEntries, List.append_assoc]

/-- Execution loop stopping at the first failing rename: the successful
prefix is applied and recorded, and the failing pair is reported. -/
theorem renameAll_stops_at_failure (renameOk : Str → Str → Bool) (dir : Str) :
    ∀ (pre : List RenamePreview) (pf : RenamePreview) (rest : List RenamePreview)
      (fs : List Str) (acc : List RenameHistoryEntry),
      (∀ q ∈ pre, renameOk (pathJoin dir q.original_name) (pathJoin dir q.new_name) = true) →
      renameOk (pathJoin dir pf.original_name) (pathJoin dir pf.new_name) = false →
      renameAll renameOk dir (pre ++ pf :: rest) fs acc =
        (applyAllRenames dir fs pre, acc ++ toEntries pre,
          some (pf.original_name, pf.new_name)) := by
  intro pre
  induction pre with
  | nil =>
    intro pf rest fs acc _ hpf
    simp [renameAll, hpf, applyAllRenames, toEntries]
  | cons q pre' ih =>
    intro pf rest fs acc hall hpf
    have hq := hall q (List.mem_cons_self q pre')
    simp only [List.cons_append, renameAll, hq, if_true, List.append_eq]
    rw [ih pf rest _ _ (fun r hr => hall r (List.mem_cons_of_mem q hr)) hpf]
    simp [applyAllRenames, toEntries, List.append_assoc]

/-- Claim C2: when validation passes and the batch's execution reaches a
preview whose filesystem rename fails (every earlier rename having
succeeded), execution stops immediately with an error identifying the
failing original-to-new pair; every rename already applied — exactly the
successful prefix, applied sequentially in batch order — remains applied,
with no rollback. -/
theorem execute_renames_execution_failure (previews : List RenamePreview) (dir : Str)
    (description : Option Str) (timestamp : Nat) (fs : List Str)
    (renameOk : Str → Str → Bool) (history : RenameHistory)
    (pre : List RenamePreview) (pf : RenamePreview) (rest : List RenamePreview)
    (hval : (previews.filter (fun p => p.will_change)).filterMap (validateOne dir fs) = [])
    (hsplit : previews.filter (fun p => p.will_change) = pre ++ pf :: rest)
    (hpre : ∀ q ∈ pre, renameOk (pathJoin dir q.original_name) (pathJoin dir q.new_name) = true)
    (hpf : renameOk (pathJoin dir pf.original_name) (pathJoin dir pf.new_name) = false) :
    execute_renames_with_history previews dir description timestamp fs renameOk history =
      { result := Except.error (RnmError.execFailed pf.original_name pf.new_name)
        fs := applyAllRenames dir fs pre
        history := history } := by
  unfold execute_renames_with_history
  rw [if_neg (fun hcon => hcon hval), hsplit,
    renameAll_stops_at_failure renameOk dir pre pf rest fs [] hpre hpf]

/-- Witness for C2: a two-preview batch whose second rename fails leaves
the first rename applied and reports the second pair. -/
theorem execute_renames_execution_failure_witness :
    execute_renames_with_history
      [⟨str "a.txt", str "b.txt", true, 0⟩, ⟨str "c.txt", str "dd.txt", true, 1⟩]
      (str "/d") (some (str "m")) 9
      [pathJoin (str "/d") (str "a.txt"), pathJoin (str "/d") (str "c.txt")]
      (fun _ n => n != pathJoin (str "/d") (str "dd.txt")) ⟨[]⟩ =
      { result := Except.error (RnmError.execFailed (str "c.txt") (str "dd.txt"))
        fs := applyAllRenames (str "/d")
          [pathJoin (str "/d") (str "a.txt"), pathJoin (str "/d") (str "c.txt")]
          [⟨str "a.txt", str "b.txt", true, 0⟩]
        history := ⟨[]⟩ } :=
  execute_renames_execution_failure
    [⟨str "a.txt", str "b.txt", true, 0⟩, ⟨str "c.txt", str "dd.txt", true, 1⟩]
    (str "/d") (some (str "m")) 9
    [pathJoin (str "/d") (str "a.txt"), pathJoin (str "/d") (str "c.txt")]
    (fun _ n => n != pathJoin (str "/d") (str "dd.txt")) ⟨[]⟩
    [⟨str "a.txt", str "b.txt", true, 0⟩] ⟨str "c.txt", str "dd.txt", true, 1⟩ []
    (by decide) (by decide) (by decide) (by decide)

/-- Claim C10: when an individual rename fails mid-batch, no
RenameOperation is recorded in the history store for that call even though
the renames applied before the failure remain applied; and the history
entry is written exactly when the entire batch executes without error (and
the renamed set is non-empty and a description is given). -/
theorem failed_batch_records_no_history (previews : List RenamePreview) (dir : Str)
    (description : Option Str) (timestamp : Nat) (fs : List Str)
    (renameOk : Str → Str → Bool) (history : RenameHistory)
    (pre : List RenamePreview) (pf : RenamePreview) (rest : List RenamePreview)
    (hval : (previews.filter (fun p => p.will_change)).filterMap (validateOne dir fs) = [])
    (hsplit : previews.filter (fun p => p.will_change) = pre ++ pf :: rest)
    (hpre : ∀ q ∈ pre, renameOk (pathJoin dir q.original_name) (pathJoin dir q.new_name) = true)
    (hpf : renameOk (pathJoin dir pf.original_name) (pathJoin dir pf.new_name) = false) :
    ((execute_renames_with_history previews dir description timestamp fs renameOk history).history
        = history ∧
      (execute_renames_with_history previews dir description timestamp fs renameOk history).fs
        = applyAllRenames dir fs pre) ∧
    ∀ renameOk2 : Str → Str → Bool,
      (∀ q ∈ previews.filter (fun p => p.will_change),
        renameOk2 (pathJoin dir q.original_name) (pathJoin dir q.new_name) = true) →
      (execute_renames_with_history previews dir description timestamp fs renameOk2 history).history =
        (if toEntries (previews.filter (fun p => p.will_change)) ≠ [] ∧
            description.isSome = true then
          history.add_operation ⟨timestamp, dir,
            toEntries (previews.filter (fun p => p.will_change)),
            description.getD (str "Umbenennung")⟩
         else history) := by
  constructor
  · constructor <;>
    · unfold execute_renames_with_history
      rw [if_neg (fun hcon => hcon hval), hsplit,
        renameAll_stops_at_failure renameOk dir pre pf rest fs [] hpre hpf]
  · intro renameOk2 hall
    unfold execute_renames_with_history
    rw [if_neg (fun hcon => hcon hval),
      renameAll_all_ok renameOk2 dir (previews.filter (fun p => p.will_change)) fs [] hall]
    simp only [List.nil_append]

/-- Witness for C10: after a mid-batch rename failure the history store is
unchanged. -/
theorem failed_batch_records_no_history_witness :
    (execute_renames_with_history
      [⟨str "e.txt", str "f.txt", true, 0⟩, ⟨str "g.txt", str "hh.txt", true, 1⟩]
      (str "/w") (some (str "op")) 3
      [pathJoin (str "/w") (str "e.txt"), pathJoin (str "/w") (str "g.txt")]
      (fun _ n => n != pathJoin (str "/w") (str "hh.txt")) ⟨[]⟩).history = ⟨[]⟩ :=
  (failed_batch_records_no_history
    [⟨str "e.txt", str "f.txt", true, 0⟩, ⟨str "g.txt", str "hh.txt", true, 1⟩]
    (str "/w") (some (str "op")) 3
    [pathJoin (str "/w") (str "e.txt"), pathJoin (str "/w") (str "g.txt")]
    (fun _ n => n != pathJoin (str "/w") (str "hh.txt")) ⟨[]⟩
    [⟨str "e.txt", str "f.txt", true, 0⟩] ⟨str "g.txt", str "hh.txt", true, 1⟩ []
    (by decide) (by decide) (by decide) (by decide)).1.1

/-- Claim C3: undoing on a non-empty history (with a succeeding history
save) persists the history with the popped most-recent operation removed
regardless of how many per-entry undos succeeded; the result is an error
exactly when zero entries were undone and at least one error was collected,
and any partial success is reported as a success carrying the count of
undone entries (paired with the operation's directory). -/
theorem undo_last_rename_semantics (history : RenameHistory) (fs : List Str)
    (renameOk : Str → Str → Bool) (ops : List RenameOperation) (op : RenameOperation)
    (hpop : history.operations = ops ++ [op]) :
    (undo_last_rename history fs renameOk true).diskHistory = ⟨ops⟩ ∧
    ((∃ e, (undo_last_rename history fs renameOk true).result = Except.error e) ↔
      ((undoCore renameOk op fs).2.1 = 0 ∧ (undoCore renameOk op fs).2.2 ≠ [])) ∧
    ((undoCore renameOk op fs).2.1 ≠ 0 ∨ (undoCore renameOk op fs).2.2 = [] →
      (undo_last_rename history fs renameOk true).result =
        Except.ok ((undoCore renameOk op fs).2.1, op.directory)) ∧
    (undo_last_rename history fs renameOk true).fs = (undoCore renameOk op fs).1 := by
  unfold undo_last_rename
  rw [hpop, List.getLast?_concat, List.dropLast_concat]
  simp only
  rw [if_neg (fun h => Bool.noConfusion h)]
  by_cases hc : (undoCore renameOk op fs).2.1 = 0 ∧ (undoCore renameOk op fs).2.2 ≠ []
  · rw [if_pos hc]
    refine ⟨rfl, ?_, ?_, rfl⟩
    · exact ⟨fun _ => hc, fun _ => ⟨RnmError.undoFailed (undoCore renameOk op fs).2.2, rfl⟩⟩
    · intro hcon
      exfalso
      rcases hcon with hcon | hcon
      · exact hcon hc.1
      · exact hc.2 hcon
  · rw [if_neg hc]
    refine ⟨rfl, ?_, fun _ => rfl, rfl⟩
    constructor
    · rintro ⟨e, he⟩
      exact Except.noConfusion he
    · intro h
      exact absurd h hc

/-- Witness for C3: one undoable entry and one vanished entry give a
partial success with count 1, and the popped operation is removed from the
persisted history. -/
theorem undo_last_rename_semantics_witness :
    (undo_last_rename
      ⟨[⟨0, str "/d", [⟨str "a.txt", str "b.txt"⟩, ⟨str "c.txt", str "dd.txt"⟩], str "m"⟩]⟩
      [pathJoin (str "/d") (str "b.txt")] (fun _ _ => true) true).diskHistory = ⟨[]⟩ ∧
    (undo_last_rename
      ⟨[⟨0, str "/d", [⟨str "a.txt", str "b.txt"⟩, ⟨str "c.txt", str "dd.txt"⟩], str "m"⟩]⟩
      [pathJoin (str "/d") (str "b.txt")] (fun _ _ => true) true).result =
      Except.ok (1, str "/d") :=
  ⟨(undo_last_rename_semantics
      ⟨[⟨0, str "/d", [⟨str "a.txt", str "b.txt"⟩, ⟨str "c.txt", str "dd.txt"⟩], str "m"⟩]⟩
      [pathJoin (str "/d") (str "b.txt")] (fun _ _ => true) []
      ⟨0, str "/d", [⟨str "a.txt", str "b.txt"⟩, ⟨str "c.txt", str "dd.txt"⟩], str "m"⟩
      rfl).1,
    ((undo_last_rename_semantics
      ⟨[⟨0, str "/d", [⟨str "a.txt", str "b.txt"⟩, ⟨str "c.txt", str "dd.txt"⟩], str "m"⟩]⟩
      [pathJoin (str "/d") (str "b.txt")] (fun _ _ => true) []
      ⟨0, str "/d", [⟨str "a.txt", str "b.txt"⟩, ⟨str "c.txt", str "dd.txt"⟩], str "m"⟩
      rfl).2.2.1 (by decide)).trans rfl⟩

/-- Loop of `generate_previews` as the spec describes it: transform the
picked `(index, file)` pairs in order, stepping the counter once per
processed file. -/
theorem previewLoop_eq_specAssign (files : List FileEntry) (a : ModeArgs)
    (regex : Option Regexish) :
    ∀ (idxs : List Nat) (counter : Nat),
      previewLoop files a regex idxs counter =
        specAssign a regex (idxs.filterMap (pickIndexed files)) counter := by
  intro idxs
  induction idxs with
  | nil =>
    intro counter
    rfl
  | cons i rest ih =>
    intro counter
    cases hf : files.get? i with
    | none =>
      rw [List.get?_eq_getElem?] at hf
      simp [previewLoop, List.filterMap_cons, pickIndexed, hf, ih]
    | some f =>
      rw [List.get?_eq_getElem?] at hf
      cases hd : f.is_dir <;>
        simp [previewLoop, List.filterMap_cons, pickIndexed, hf, hd, ih, specAssign]

/-- A picked pair keeps its index in the first component. -/
theorem pickIndexed_fst (files : List FileEntry) {i : Nat} {x : Nat × FileEntry}
    (hx : pickIndexed files i = some x) : x.1 = i := by
  unfold pickIndexed at hx
  rw [Option.bind_eq_some] at hx
  obtain ⟨g, _, hgx⟩ := hx
  by_cases hd : g.is_dir = true
  · rw [if_pos hd] at hgx
    exact Option.noConfusion hgx
  · rw [if_neg hd] at hgx
    injection hgx with h2
    rw [← h2]

/-- Characterization of the processed pairs: exactly the in-range
non-directory files, restricted to the selection when it is non-empty. -/
theorem mem_specSelected (files : List FileEntry) (selected : List Nat)
    (i : Nat) (f : FileEntry) :
    (i, f) ∈ specSelected files selected ↔
      (files.get? i = some f ∧ f.is_dir = false ∧ (selected = [] ∨ i ∈ selected)) := by
  unfold specSelected
  rw [List.mem_filterMap]
  constructor
  · rintro ⟨j, hj, hpick⟩
    have hji : i = j := pickIndexed_fst files hpick
    subst hji
    unfold pickIndexed at hpick
    rw [Option.bind_eq_some] at hpick
    obtain ⟨g, hg, hgx⟩ := hpick
    by_cases hd : g.is_dir = true
    · rw [if_pos hd] at hgx
      exact Option.noConfusion hgx
    · rw [if_neg hd] at hgx
      injection hgx with h2
      injection h2 with h3 h4
      subst h4
      refine ⟨hg, by simpa using hd, ?_⟩
      by_cases hs : selected = []
      · exact Or.inl hs
      · rw [if_neg hs] at hj
        exact Or.inr (((List.perm_insertionSort _ selected).mem_iff).mp hj)
  · rintro ⟨hf, hd, hsel⟩
    refine ⟨i, ?_, ?_⟩
    · by_cases hs : selected = []
      · rw [if_pos hs, List.mem_range]
        obtain ⟨hlt, _⟩ := List.get?_eq_some.mp hf
        exact hlt
      · rw [if_neg hs]
        exact ((List.perm_insertionSort _ selected).mem_iff).mpr (hsel.resolve_left hs)
    · unfold pickIndexed
      rw [hf, Option.some_bind, if_neg (by simp [hd])]

/-- The processed pairs are in strictly ascending index order. -/
theorem specSelected_pairwise (files : List FileEntry) (selected : List Nat)
    (hnodup : selected.Nodup) :
    List.Pairwise (fun x y : Nat × FileEntry => x.1 < y.1)
      (specSelected files selected) := by
  unfold specSelected
  rw [List.pairwise_filterMap]
  have hbase : List.Pairwise (fun i j : Nat => i < j)
      (if selected = [] then List.range files.length
       else List.insertionSort (fun i j => i ≤ j) selected) := by
    split
    · exact List.sorted_lt_range files.length
    · have hs : List.Pairwise (fun i j : Nat => i ≤ j)
          (List.insertionSort (fun i j => i ≤ j) selected) :=
        List.sorted_insertionSort (fun i j : Nat => i ≤ j) selected
      have hnd : List.Pairwise (fun i j : Nat => i ≠ j)
          (List.insertionSort (fun i j => i ≤ j) selected) :=
        ((List.perm_insertionSort _ selected).nodup_iff).mpr hnodup
      exact (hs.and hnd).imp (fun h => lt_of_le_of_ne h.1 h.2)
  refine hbase.imp ?_
  intro i j hij x hx y hy
  have hxi : x.1 = i := pickIndexed_fst files hx
  have hyj : y.1 = j := pickIndexed_fst files hy
  rw [hxi, hyj]
  exact hij

/-- Claim C7: whenever `generate_previews` returns a batch, the batch is
the by-name re-sorted permutation of the spec-side assignment, in which the
processed pairs are exactly the in-range non-directory files (all of them
for an empty selection, else exactly the selected ones) in strictly
ascending index order, and the counter starts at `number_start` stepping by
`number_step` once per processed file in that order; the final sort by
`original_name` permutes the already-assigned previews without changing
them. -/
theorem generate_previews_selection_order_counter (files : List FileEntry)
    (selected : List Nat) (a : ModeArgs) (compile : Str → Except Str Regexish)
    (l : List RenamePreview) (hnodup : selected.Nodup)
    (hok : generate_previews files selected a compile = Except.ok l) :
    (∃ regex, compiledRegex a compile = Except.ok regex ∧
      l = sortByName (specAssign a regex (specSelected files selected) a.number_start) ∧
      l.Perm (specAssign a regex (specSelected files selected) a.number_start) ∧
      List.Pairwise (fun p q : RenamePreview => p.original_name ≤ q.original_name) l) ∧
    List.Pairwise (fun x y : Nat × FileEntry => x.1 < y.1) (specSelected files selected) ∧
    ∀ i f, (i, f) ∈ specSelected files selected ↔
      (files.get? i = some f ∧ f.is_dir = false ∧ (selected = [] ∨ i ∈ selected)) := by
  refine ⟨?_, specSelected_pairwise files selected hnodup,
    fun i f => mem_specSelected files selected i f⟩
  unfold generate_previews at hok
  cases hcr : compiledRegex a compile with
  | error e =>
    rw [hcr] at hok
    exact Except.noConfusion hok
  | ok regex =>
    rw [hcr] at hok
    injection hok with hok2
    haveI htot : IsTotal RenamePreview (fun p q => p.original_name ≤ q.original_name) :=
      ⟨fun p q => le_total p.original_name q.original_name⟩
    haveI htra : IsTrans RenamePreview (fun p q => p.original_name ≤ q.original_name) :=
      ⟨fun p q r h1 h2 => le_trans h1 h2⟩
    refine ⟨regex, rfl, ?_, ?_, ?_⟩
    · rw [← hok2, previewLoop_eq_specAssign]
      rfl
    · rw [← hok2, previewLoop_eq_specAssign]
      exact List.perm_insertionSort _ _
    · rw [← hok2]
      exact List.sorted_insertionSort _ _

/-- Witness for C7: on files `[b.jpg, a.jpg, d(dir)]` with selection
`[2, 0, 1]` in numbering mode, the processed pairs are `(0, b.jpg)` then
`(1, a.jpg)` in ascending index order. -/
theorem generate_previews_selection_order_counter_witness :
    List.Pairwise (fun x y : Nat × FileEntry => x.1 < y.1)
      (specSelected
        [⟨str "b.jpg", false, none⟩, ⟨str "a.jpg", false, none⟩, ⟨str "d", true, none⟩]
        [2, 0, 1]) :=
  (generate_previews_selection_order_counter
    [⟨str "b.jpg", false, none⟩, ⟨str "a.jpg", false, none⟩, ⟨str "d", true, none⟩]
    [2, 0, 1]
    ⟨str "f#", [], RenameMode.Numbering, PrefixAction.Add, 1, 2, DatePosition.PrefixPos⟩
    (fun _ => Except.error (str "e"))
    [⟨str "a.jpg", str "f3.jpg", true, 1⟩, ⟨str "b.jpg", str "f1.jpg", true, 0⟩]
    (by decide) rfl).2.1

end Rnm
